import Mathlib

/-!
# Verification of the LSI search engine (`src/search_engine.py`)

Shallow embedding of the toy latent-semantic-indexing search engine.

Modelling conventions:
* numpy floating-point scalars are modelled as elements of a linear ordered
  field (instantiated at `ℝ` in the theorems); `numpy.sqrt`/`numpy.arccos` are
  passed as explicit function parameters to the definitions that use them and
  are instantiated with `Real.sqrt`/`Real.arccos` in the theorems.
  In this exact-arithmetic model division by zero yields `0` (the Lean field
  convention); the source's IEEE arithmetic would yield `nan` at those points —
  every theorem that touches such a point notes it.
* numpy 1-D arrays are `List α`; the 2-D arrays produced by `numpy.linalg.svd`
  and sliced by `truncatedSVD` are `List (List α)` (rows); the count matrix that
  `generateCounts` fills by random-access writes is a function `Nat → Nat → α`
  together with its explicit dimensions.
* Python's `list.sort` is a stable sort; it is modelled by `List.mergeSort`,
  which is proved stable in the Lean core library.  Two stable sorts with the
  same key agree extensionally, so this is a faithful model of timsort.
* `data` (the unpickled corpus) is a Python `dict`; it is modelled as an
  association list with pairwise-distinct keys (`dict` keys are unique).
-/

namespace LSI

open List

/-- A corpus: mapping from document url to its list of (tag, count) pairs.
Source: the unpickled `data` dictionary (`loadData`, line 88-90). -/
abbrev Corpus (α : Type) : Type := List (String × List (String × α))

section Defs

variable {α : Type} [LinearOrderedField α]

/-- `numpy.dot` on two vectors: sum of elementwise products.
(The zip truncates at the shorter list; numpy instead raises on mismatched
shapes, and every use below has matching shapes.) -/
def dotl (xs ys : List α) : α := (List.zipWith (· * ·) xs ys).sum

/-- `numpy.linalg.norm` of a vector: square root of the sum of squares. -/
def norml (sqrt : α → α) (xs : List α) : α := sqrt (dotl xs xs)

/-- `cosDist` (line 92-94): `arccos(dot(q, p)/(norm(q)*norm(p)))`.
No clamping of the argument is performed by the source. -/
def cosDist (sqrt arccos : α → α) (p q : List α) : α :=
  arccos (dotl q p / (norml sqrt q * norml sqrt p))

/-- `numpy.dot` of a matrix (list of rows) with a vector. -/
def matVec (M : List (List α)) (v : List α) : List α := M.map (fun row => dotl row v)

/-- Column `i` of a matrix given as a list of rows (`M[:,i]`). -/
def matCol (M : List (List α)) (i : Nat) : List α := M.map (fun row => row.getD i 0)

/-- The state of a constructed `SearchEngine` (fields set by `__init__`,
lines 39-55).  `Ut` is `U_k^T` (k × terms), `Si` is `inv(S_k)` (k × k),
`Vt` is `V_k^T` (k × documents). `no_tags` is `len(tags)` and is therefore
represented by `tags.length` rather than by a separate field. -/
structure SearchEngine (α : Type) where
  urls : List String
  tags : List String
  Ut : List (List α)
  Si : List (List α)
  Vt : List (List α)
  no_svd_components : Nat
  no_results : Nat

/-- `SearchEngine.build_query_vector` (lines 57-64): start from
`zeros(no_tags)` and set `q[tags.index(key)] = 1` for each key word; the
`try/except: pass` skips keys absent from `tags` (where `.index` raises). -/
def build_query_vector (e : SearchEngine α) (key_words : List String) : List α :=
  key_words.foldl
    (fun q key => if key ∈ e.tags then q.set (e.tags.indexOf key) 1 else q)
    (List.replicate e.tags.length 0)

/-- `SearchEngine.project` (lines 76-80): `qhat = dot(Si, dot(Ut, q))`,
then `qhat /= norm(qhat)`.  There is no guard against `norm(qhat) = 0`. -/
def project (sqrt : α → α) (e : SearchEngine α) (q : List α) : List α :=
  let qhat := matVec e.Si (matVec e.Ut q)
  qhat.map (· / norml sqrt qhat)

/-- The boolean key order used to model `cos_distances.sort(key=lambda x: x[1])`:
compare pairs by their second (distance) component. -/
def pairLE : (Nat × α) → (Nat × α) → Bool := fun a b => decide (a.2 ≤ b.2)

/-- The loop of `nearest_urls` (lines 70-73): starting from the empty list,
append `(i, dist i)` and stable-sort by the distance component, for
`i = 0, …, d-1`.  (The source re-sorts inside the loop body; this is modelled
verbatim.) -/
def rankLoop (dists : Nat → α) : Nat → List (Nat × α)
  | 0 => []
  | j + 1 => ((rankLoop dists j) ++ [(j, dists j)]).mergeSort pairLE

/-- The fully sorted `cos_distances` list of `nearest_urls`, with
`dists i = cosDist(Vt[:,i], qhat)`. -/
def rankPairs (sqrt arccos : α → α) (e : SearchEngine α) (qhat : List α) :
    List (Nat × α) :=
  rankLoop (fun i => cosDist sqrt arccos (matCol e.Vt i) qhat) e.urls.length

/-- The unsorted list `[(0, dists 0), …, (d-1, dists (d-1))]`: the multiset of
(document index, distance) pairs that `rankLoop` sorts.  Used to state
permutation facts about the ranking. -/
def distPairs (dists : Nat → α) (d : Nat) : List (Nat × α) :=
  (List.range d).map (fun i => (i, dists i))

/-- The result-count actually used by `nearest_urls` (line 69):
`if not no_results: no_results = self.no_results` — both the default `None`
and an explicit `0` are falsy and are replaced by the engine default. -/
def effResults (e : SearchEngine α) : Option Nat → Nat
  | none => e.no_results
  | some m => if m = 0 then e.no_results else m

/-- `SearchEngine.nearest_urls` (lines 66-74): sort all documents by cosine
distance to `qhat` and return `self.urls[i]` for the first `no_results`
entries. -/
def nearest_urls (sqrt arccos : α → α) (e : SearchEngine α) (qhat : List α)
    (no_results : Option Nat) : List String :=
  ((rankPairs sqrt arccos e qhat).take (effResults e no_results)).map
    (fun p => e.urls.getD p.1 "")

/-- `SearchEngine.search` (lines 82-86). -/
def search (sqrt arccos : α → α) (e : SearchEngine α) (key_words : List String) :
    List String :=
  nearest_urls sqrt arccos e (project sqrt e (build_query_vector e key_words)) none

/-- `extractData` (lines 96-104): sorted list of urls (dict keys) and the
sorted list of all distinct tags.  Python's `set` plus `sorted` is modelled by
`dedup` plus `mergeSort`. -/
def extractData (data : Corpus α) : List String × List String :=
  ((data.map Prod.fst).mergeSort (fun a b => decide (a ≤ b)),
   (((data.map (fun d => d.2.map Prod.fst)).flatten).dedup).mergeSort
     (fun a b => decide (a ≤ b)))

/-- A single store `A[tags.index(tag), col] = count` (line 113-114). -/
def updateM (A : Nat → Nat → α) (r c : Nat) (v : α) : Nat → Nat → α :=
  fun r' c' => if r' = r ∧ c' = c then v else A r' c'

/-- The inner loop of `generateCounts` (lines 112-114): write each
`(tag, count)` pair of one document into column `col`. -/
def storePairs (tags : List String) (pairs : List (String × α)) (col : Nat)
    (A : Nat → Nat → α) : Nat → Nat → α :=
  pairs.foldl (fun B p => updateM B (tags.indexOf p.1) col p.2) A

/-- The outer loop of `generateCounts` (lines 110-115): process the urls in
order, incrementing the column counter. -/
def fillCols (data : Corpus α) (tags : List String) :
    List String → Nat → (Nat → Nat → α) → Nat → Nat → α
  | [], _, A => A
  | u :: rest, col, A =>
      fillCols data tags rest (col + 1)
        (storePairs tags ((data.lookup u).getD []) col A)

/-- `generateCounts` (lines 106-116): start from `zeros((len(tags), len(urls)))`
and fill in the counts document by document. -/
def generateCounts (data : Corpus α) (urls tags : List String) :
    Nat → Nat → α :=
  fillCols data tags urls 0 (fun _ _ => 0)

/-- Column `c` of a matrix-as-function with `rows` rows. -/
def columnList (A : Nat → Nat → α) (rows c : Nat) : List α :=
  (List.range rows).map (fun r => A r c)

/-- `normalize_columns` (lines 118-122): divide every column (`col < cols`)
by its Euclidean norm.  The source performs the division in place and
unconditionally; there is no zero-norm check. -/
def normalize_columns (sqrt : α → α) (rows cols : Nat) (A : Nat → Nat → α) :
    Nat → Nat → α :=
  fun r c => if c < cols then A r c / norml sqrt (columnList A rows c) else A r c

/-- `truncatedSVD` (lines 124-129).  The call `svd(A)` is the external
`numpy.linalg.svd` routine; its output `(U, S, Vt)` (with `U` m × m, `S` the
vector of the `min m n` singular values, `Vt` n × n) is modelled as an input,
and the lines after it are embedded: `S = resize(S,[m,1])*eye(m,n)` builds the
m × n matrix with `S[i % len S]` on the diagonal (`numpy.resize` cycles its
input), and the result is `(U[:,:k], S[:k,:k], Vt[:k,:])` — plain Python
slices, which clamp silently instead of validating `k`. -/
def truncatedSVD (U : List (List α)) (S : List α) (Vt : List (List α))
    (m n k : Nat) : List (List α) × List (List α) × List (List α) :=
  let Smat := (List.range m).map (fun i =>
    (List.range n).map (fun j => if i = j then S.getD (i % S.length) 0 else 0))
  (U.map (fun row => row.take k), (Smat.take k).map (fun row => row.take k),
   Vt.take k)

end Defs

/-! ## Infrastructure: the stable sort of the ranking loop -/

section SortFacts

variable {α : Type} [LinearOrderedField α]

theorem pairLE_trans (a b c : Nat × α) (hab : pairLE a b) (hbc : pairLE b c) :
    pairLE a c = true := by
  simp only [pairLE, decide_eq_true_eq] at *
  exact le_trans hab hbc

theorem pairLE_total (a b : Nat × α) : pairLE a b || pairLE b a := by
  simp only [pairLE, Bool.or_eq_true, decide_eq_true_eq]
  exact le_total a.2 b.2

/-- Two distinct members of a list form a two-element sublist in one of the
two orders. -/
theorem pair_sublist_of_mem {β : Type} {l : List β} {x y : β}
    (hx : x ∈ l) (hy : y ∈ l) (hxy : x ≠ y) :
    [x, y] <+ l ∨ [y, x] <+ l := by
  induction l with
  | nil => cases hx
  | cons a t ih =>
    rcases List.mem_cons.mp hx with h1 | hx1
    · subst h1
      have hy' : y ∈ t := by
        rcases List.mem_cons.mp hy with h2 | hy1
        · exact absurd h2.symm hxy
        · exact hy1
      exact Or.inl ((List.singleton_sublist.mpr hy').cons₂ x)
    · rcases List.mem_cons.mp hy with h2 | hy1
      · subst h2
        exact Or.inr ((List.singleton_sublist.mpr hx1).cons₂ y)
      · exact (ih hx1 hy1).imp (·.cons a) (·.cons a)

/-- In a duplicate-free list, a pair cannot occur as a sublist in both
orders unless its two components are equal. -/
theorem eq_of_sublist_both_orders {β : Type} {l : List β} {x y : β}
    (hl : l.Nodup) (h1 : [x, y] <+ l) (h2 : [y, x] <+ l) : x = y := by
  induction l with
  | nil => cases h1
  | cons a t ih =>
    have ha : a ∉ t := (List.nodup_cons.mp hl).1
    have ht : t.Nodup := (List.nodup_cons.mp hl).2
    cases h1 with
    | cons _ h1a =>
      cases h2 with
      | cons _ h2a => exact ih ht h1a h2a
      | cons₂ _ h2a => exact absurd (h1a.subset (by simp)) ha
    | cons₂ _ h1a =>
      cases h2 with
      | cons _ h2a => exact absurd (h2a.subset (by simp)) ha
      | cons₂ _ h2a => rfl

/-- Key stability fact: merge-sorting by the distance component preserves the
"ties are in strictly increasing index order" invariant, provided all indices
are distinct. -/
theorem mergeSort_tie_preserved {l : List (Nat × α)}
    (hnd : (l.map Prod.fst).Nodup)
    (ht : l.Pairwise (fun a b => a.2 = b.2 → a.1 < b.1)) :
    (l.mergeSort pairLE).Pairwise (fun a b => a.2 = b.2 → a.1 < b.1) := by
  have hperm : l.mergeSort pairLE ~ l := List.mergeSort_perm l pairLE
  have hnd' : ((l.mergeSort pairLE).map Prod.fst).Nodup :=
    ((hperm.map Prod.fst).nodup_iff).mpr hnd
  have hndl : (l.mergeSort pairLE).Nodup := hnd'.of_map Prod.fst
  rw [List.pairwise_iff_forall_sublist]
  intro a b hsub heq
  have hamem : a ∈ l := (List.mergeSort_perm l pairLE).subset (hsub.subset (by simp))
  have hbmem : b ∈ l := (List.mergeSort_perm l pairLE).subset (hsub.subset (by simp))
  have hne : a ≠ b := by
    rintro rfl
    have : [a, a].Nodup := hsub.nodup hndl
    simp at this
  have hfst : a.1 ≠ b.1 := by
    intro h1
    exact hne (List.inj_on_of_nodup_map hnd hamem hbmem h1)
  rcases pair_sublist_of_mem hamem hbmem hne with h | h
  · exact (List.pairwise_iff_forall_sublist.mp ht h) heq
  · -- b precedes a in the input; stability keeps b before a in the output,
    -- contradicting the given sublist [a, b].
    have hle : pairLE b a = true := by
      simp [pairLE, heq.symm.le]
    have h' : [b, a] <+ l.mergeSort pairLE :=
      List.pair_sublist_mergeSort pairLE_trans pairLE_total hle h
    exact absurd (eq_of_sublist_both_orders hndl hsub h') hne

/-- The full characterisation of the ranking loop: the result is a
permutation of the index/distance pairs, it is sorted by distance,
and ties are in strictly increasing index order. -/
theorem rankLoop_char (dists : Nat → α) (d : Nat) :
    rankLoop dists d ~ distPairs dists d ∧
    (rankLoop dists d).Pairwise (fun a b => a.2 ≤ b.2) ∧
    (rankLoop dists d).Pairwise (fun a b => a.2 = b.2 → a.1 < b.1) := by
  induction d with
  | zero => simp [rankLoop, distPairs]
  | succ j ih =>
    obtain ⟨hperm, -, htie⟩ := ih
    have hstep : distPairs dists (j + 1) = distPairs dists j ++ [(j, dists j)] := by
      simp [distPairs, List.range_succ]
    have hpermappend : rankLoop dists j ++ [(j, dists j)] ~ distPairs dists (j + 1) := by
      rw [hstep]; exact hperm.append_right _
    have hndappend : ((rankLoop dists j ++ [(j, dists j)]).map Prod.fst).Nodup := by
      have : (distPairs dists (j+1)).map Prod.fst = List.range (j+1) := by
        simp [distPairs, List.map_map, Function.comp_def]
      have := (hpermappend.map Prod.fst).nodup_iff
      rw [this]
      rw [‹(distPairs dists (j+1)).map Prod.fst = List.range (j+1)›]
      exact List.nodup_range _
    have hmemlt : ∀ a ∈ rankLoop dists j, a.1 < j := by
      intro a ha
      have := hperm.subset ha
      simp only [distPairs, List.mem_map, List.mem_range] at this
      obtain ⟨i, hi, rfl⟩ := this
      exact hi
    have htieappend :
        (rankLoop dists j ++ [(j, dists j)]).Pairwise
          (fun a b => a.2 = b.2 → a.1 < b.1) := by
      rw [List.pairwise_append]
      refine ⟨htie, by simp, ?_⟩
      intro a ha b hb
      simp only [List.mem_singleton] at hb
      subst hb
      intro _
      exact hmemlt a ha
    refine ⟨?_, ?_, ?_⟩
    · exact (List.mergeSort_perm _ pairLE).trans hpermappend
    · have := @List.sorted_mergeSort _ pairLE pairLE_trans pairLE_total
        (rankLoop dists j ++ [(j, dists j)])
      exact this.imp (by intro a b h; simpa [pairLE] using h)
    · exact mergeSort_tie_preserved hndappend htieappend

/-- If all distances are equal, the loop never reorders anything: the result
is the identity pairing in index order. -/
theorem rankLoop_const {dists : Nat → α} {D : α} (h : ∀ i, dists i = D) (d : Nat) :
    rankLoop dists d = distPairs dists d := by
  induction d with
  | zero => simp [rankLoop, distPairs]
  | succ j ih =>
    have hstep : distPairs dists (j + 1) = distPairs dists j ++ [(j, dists j)] := by
      simp [distPairs, List.range_succ]
    rw [rankLoop, ih, ← hstep]
    apply List.mergeSort_of_sorted
    have : ∀ a b : Nat × α, a ∈ distPairs dists (j+1) → b ∈ distPairs dists (j+1) →
        pairLE a b = true := by
      intro a b ha hb
      simp only [distPairs, List.mem_map, List.mem_range] at ha hb
      obtain ⟨i, -, rfl⟩ := ha
      obtain ⟨i', -, rfl⟩ := hb
      simp [pairLE, h i, h i']
    exact List.pairwise_iff_forall_sublist.mpr
      (fun {a b} hs => this a b (hs.subset (by simp)) (hs.subset (by simp)))

end SortFacts

/-! ## Infrastructure: shape facts about `nearest_urls` -/

section RankFacts

variable {α : Type} [LinearOrderedField α]

theorem rankPairs_perm (sqrt arccos : α → α) (e : SearchEngine α) (qhat : List α) :
    rankPairs sqrt arccos e qhat ~
      distPairs (fun i => cosDist sqrt arccos (matCol e.Vt i) qhat) e.urls.length :=
  (rankLoop_char _ _).1

theorem length_rankPairs (sqrt arccos : α → α) (e : SearchEngine α) (qhat : List α) :
    (rankPairs sqrt arccos e qhat).length = e.urls.length := by
  rw [(rankPairs_perm sqrt arccos e qhat).length_eq]
  simp [distPairs]

/-- Reading every position of a list through `getD` in index order gives back
the list. -/
theorem mapRange_getD (l : List String) (x : String) :
    (List.range l.length).map (fun i => l.getD i x) = l := by
  apply List.ext_getElem (by simp)
  intro i h1 h2
  simp only [List.getElem_map, List.getElem_range]
  exact List.getD_eq_getElem l x h2

theorem nearest_urls_eq_take_map (sqrt arccos : α → α) (e : SearchEngine α)
    (qhat : List α) (o : Option Nat) :
    nearest_urls sqrt arccos e qhat o =
      ((rankPairs sqrt arccos e qhat).map (fun p => e.urls.getD p.1 "")).take
        (effResults e o) := by
  simp [nearest_urls, List.map_take]

/-- The ranked url list (before truncation) is a permutation of all the urls. -/
theorem rankPairs_map_perm (sqrt arccos : α → α) (e : SearchEngine α) (qhat : List α) :
    (rankPairs sqrt arccos e qhat).map (fun p => e.urls.getD p.1 "") ~ e.urls := by
  refine ((rankPairs_perm sqrt arccos e qhat).map _).trans ?_
  rw [show (distPairs (fun i => cosDist sqrt arccos (matCol e.Vt i) qhat)
        e.urls.length).map (fun p => e.urls.getD p.1 "") =
      (List.range e.urls.length).map (fun i => e.urls.getD i "") by
    simp [distPairs, List.map_map, Function.comp_def]]
  rw [mapRange_getD]

theorem length_nearest_urls (sqrt arccos : α → α) (e : SearchEngine α)
    (qhat : List α) (o : Option Nat) :
    (nearest_urls sqrt arccos e qhat o).length =
      min (effResults e o) e.urls.length := by
  rw [nearest_urls_eq_take_map]
  simp [List.length_take, length_rankPairs]

end RankFacts

/-! ## Claims C7 and C10: result-count behaviour of `nearest_urls` -/

/-- **C7, counterexample.**  The claim says the ranking returns exactly
`min N d` document-ids *for every requested result count N*.  For the
override `N = 0` this fails: line 69 (`if not no_results`) treats `0` as
falsy and replaces it with the engine default (here 5), so a two-document
engine returns 2 results where the claim demands `min 0 2 = 0`. -/
theorem c7_count_counterexample :
    (nearest_urls Real.sqrt Real.arccos
        (⟨["a", "b"], ["t"], [[1]], [[1]], [[1, 0]], 1, 5⟩ : SearchEngine ℝ)
        [1] (some 0)).length = 2 ∧ (2 : Nat) ≠ min 0 2 := by
  constructor
  · rw [length_nearest_urls]
    rfl
  · decide

/-- **C7, amended.**  For every engine with duplicate-free urls and every
*positive* requested count `n`, `nearest_urls` returns exactly
`min n d` document-ids (`d` the number of documents), without duplicates,
and when `n ≥ d` it returns exactly all `d` documents (a permutation of the
url list) — no failure.  (For `n = 0` the per-call override is ignored;
see the C10 theorems.) -/
theorem c7_count_clamped (e : SearchEngine ℝ) (qhat : List ℝ) (n : Nat)
    (hn : 1 ≤ n) (hnd : e.urls.Nodup) :
    (nearest_urls Real.sqrt Real.arccos e qhat (some n)).length = min n e.urls.length ∧
    (nearest_urls Real.sqrt Real.arccos e qhat (some n)).Nodup ∧
    (e.urls.length ≤ n → nearest_urls Real.sqrt Real.arccos e qhat (some n) ~ e.urls) := by
  have heff : effResults e (some n) = n := by
    simp only [effResults]
    rw [if_neg (by omega)]
  refine ⟨?_, ?_, ?_⟩
  · rw [length_nearest_urls, heff]
  · rw [nearest_urls_eq_take_map]
    exact (List.take_sublist _ _).nodup
      ((rankPairs_map_perm Real.sqrt Real.arccos e qhat).nodup_iff.mpr hnd)
  · intro hle
    rw [nearest_urls_eq_take_map, heff, List.take_of_length_le
      (by rw [(rankPairs_map_perm Real.sqrt Real.arccos e qhat).length_eq]; exact hle)]
    exact rankPairs_map_perm Real.sqrt Real.arccos e qhat

theorem c7_count_clamped_witness :
    (1 : Nat) ≤ 3 ∧ (["a"] : List String).Nodup ∧
    (nearest_urls Real.sqrt Real.arccos
        (⟨["a"], ["t"], [[1]], [[1]], [[1]], 1, 5⟩ : SearchEngine ℝ)
        [1] (some 3)).length = min 3 (["a"] : List String).length :=
  ⟨by decide, by decide,
   (c7_count_clamped ⟨["a"], ["t"], [[1]], [[1]], [[1]], 1, 5⟩ [1] 3
      (by decide) (by decide)).1⟩

/-- **C10, counterexample.**  The claim says an override of `0` *never*
returns an empty list because the engine default is used instead.  But the
engine default itself may be `0` (the constructor accepts any
`no_results`), in which case the override `0` falls back to the default `0`
and the result is empty. -/
theorem c10_zero_override_counterexample :
    nearest_urls Real.sqrt Real.arccos
      (⟨["a"], ["t"], [[1]], [[1]], [[1]], 1, 0⟩ : SearchEngine ℝ) [1] (some 0) = [] :=
  rfl

/-- **C10, amended.**  The override `0` is indeed ignored — line 69 treats it
as falsy, so the call behaves exactly like the no-override call and there is
no way to request zero results through the override parameter — and the
result is non-empty provided the engine's default count is positive and the
engine has at least one document. -/
theorem c10_zero_override (e : SearchEngine ℝ) (qhat : List ℝ)
    (h1 : 1 ≤ e.no_results) (h2 : e.urls ≠ []) :
    nearest_urls Real.sqrt Real.arccos e qhat (some 0) =
      nearest_urls Real.sqrt Real.arccos e qhat none ∧
    nearest_urls Real.sqrt Real.arccos e qhat (some 0) ≠ [] := by
  refine ⟨rfl, ?_⟩
  have hlen : (nearest_urls Real.sqrt Real.arccos e qhat (some 0)).length =
      min e.no_results e.urls.length := by
    rw [length_nearest_urls]; rfl
  intro hnil
  rw [hnil] at hlen
  have hp : 0 < e.urls.length := List.length_pos.mpr h2
  simp only [List.length_nil] at hlen
  omega

theorem c10_zero_override_witness :
    nearest_urls Real.sqrt Real.arccos
        (⟨["a"], ["t"], [[1]], [[1]], [[1]], 1, 5⟩ : SearchEngine ℝ) [1] (some 0) =
      nearest_urls Real.sqrt Real.arccos
        (⟨["a"], ["t"], [[1]], [[1]], [[1]], 1, 5⟩ : SearchEngine ℝ) [1] none ∧
    nearest_urls Real.sqrt Real.arccos
        (⟨["a"], ["t"], [[1]], [[1]], [[1]], 1, 5⟩ : SearchEngine ℝ) [1] (some 0) ≠ [] :=
  c10_zero_override ⟨["a"], ["t"], [[1]], [[1]], [[1]], 1, 5⟩ [1] (by decide) (by decide)

/-! ## Claim C9: the truncated SVD wrapper -/

theorem take_range {k m : Nat} (h : k ≤ m) : (List.range m).take k = List.range k := by
  apply List.ext_getElem (by simp [Nat.min_eq_left h])
  intro i h1 h2
  simp

/-- **C9, counterexample.**  The claim says `truncatedSVD` fails with
`InvalidRankError` when `k < 1` or `k > min(terms, documents)`.  It does not:
lines 126-129 perform no validation, and Python slices clamp silently.  At
`k = 0` the function returns empty factors, and at `k = 5 > min 2 2` it
returns the full (un-truncated) factors — in both cases a normal value, not
an error. -/
theorem c9_rank_validation_counterexample :
    truncatedSVD ([[1, 0], [0, 1]] : List (List ℝ)) [2, 1] [[1, 0], [0, 1]] 2 2 0 =
      ([[], []], [], []) ∧
    truncatedSVD ([[1, 0], [0, 1]] : List (List ℝ)) [2, 1] [[1, 0], [0, 1]] 2 2 5 =
      ([[1, 0], [0, 1]], [[2, 0], [0, 1]], [[1, 0], [0, 1]]) :=
  ⟨rfl, rfl⟩

/-- **C9, amended.**  `truncatedSVD` never raises: out-of-range `k` is
silently clamped by the slices.  For `k` in the claimed valid range
`1 ≤ k ≤ min(terms, documents)` and well-shaped SVD factors the wrapper does
return `U_k` of shape `m × k`, the `k × k` diagonal matrix carrying the first
`k` singular values (which are in descending order whenever the full list of
singular values is, as `numpy.linalg.svd` guarantees), and `V_k^T` of shape
`k × n`. -/
theorem c9_truncation_shapes (U : List (List ℝ)) (S : List ℝ) (Vt : List (List ℝ))
    (m n k : Nat) (hk1 : 1 ≤ k) (hk2 : k ≤ min m n)
    (hUlen : U.length = m) (hUrow : ∀ row ∈ U, row.length = m)
    (hS : S.length = min m n)
    (hVlen : Vt.length = n) (hVrow : ∀ row ∈ Vt, row.length = n)
    (hdesc : S.Pairwise (· ≥ ·)) :
    (truncatedSVD U S Vt m n k).1.length = m ∧
    (∀ row ∈ (truncatedSVD U S Vt m n k).1, row.length = k) ∧
    (truncatedSVD U S Vt m n k).2.1 =
      (List.range k).map (fun i =>
        (List.range k).map (fun j => if i = j then S.getD i 0 else 0)) ∧
    (S.take k).Pairwise (· ≥ ·) ∧
    (truncatedSVD U S Vt m n k).2.2.length = min k n ∧
    (∀ row ∈ (truncatedSVD U S Vt m n k).2.2, row.length = n) := by
  have hkm : k ≤ m := le_trans hk2 (Nat.min_le_left m n)
  have hkn : k ≤ n := le_trans hk2 (Nat.min_le_right m n)
  refine ⟨?_, ?_, ?_, ?_, ?_, ?_⟩
  · simp [truncatedSVD, hUlen]
  · intro row hr
    simp only [truncatedSVD, List.mem_map] at hr
    obtain ⟨r, hrU, rfl⟩ := hr
    rw [List.length_take, hUrow r hrU]
    exact Nat.min_eq_left hkm
  · show ((((List.range m).map _).take k).map _) = _
    rw [← List.map_take, take_range hkm, List.map_map]
    apply List.map_congr_left
    intro i hi
    simp only [List.mem_range] at hi
    have hilt : i < S.length := by rw [hS]; exact lt_of_lt_of_le hi hk2
    simp only [Function.comp_def, ← List.map_take, take_range hkn]
    rw [Nat.mod_eq_of_lt hilt]
  · exact hdesc.sublist (List.take_sublist _ _)
  · simp [truncatedSVD, List.length_take, hVlen]
  · intro row hr
    simp only [truncatedSVD] at hr
    exact hVrow row ((List.take_sublist _ _).subset hr)

theorem c9_truncation_shapes_witness :
    (1 : Nat) ≤ 1 ∧ (1 : Nat) ≤ min 2 2 ∧
    (truncatedSVD ([[1, 0], [0, 1]] : List (List ℝ)) [2, 1] [[1, 0], [0, 1]] 2 2 1).1.length = 2 ∧
    (truncatedSVD ([[1, 0], [0, 1]] : List (List ℝ)) [2, 1] [[1, 0], [0, 1]] 2 2 1).2.1 =
      (List.range 1).map (fun i =>
        (List.range 1).map (fun j => if i = j then ([2, 1] : List ℝ).getD i 0 else 0)) := by
  have h := c9_truncation_shapes [[1, 0], [0, 1]] [2, 1] [[1, 0], [0, 1]] 2 2 1
    (by decide) (by decide) (by decide)
    (by intro row hr
        simp only [List.mem_cons, List.not_mem_nil, or_false] at hr
        rcases hr with rfl | rfl <;> rfl)
    (by decide) (by decide)
    (by intro row hr
        simp only [List.mem_cons, List.not_mem_nil, or_false] at hr
        rcases hr with rfl | rfl <;> rfl)
    (by norm_num)
  exact ⟨by decide, by decide, h.1, h.2.2.1⟩

/-! ## Infrastructure for claims C5 and C8: the matrix builder -/

section BuilderFacts

variable {α : Type} [LinearOrderedField α]

theorem string_le_trans (a b c : String) (hab : decide (a ≤ b) = true)
    (hbc : decide (b ≤ c) = true) : decide (a ≤ c) = true := by
  simp only [decide_eq_true_eq] at *
  exact le_trans hab hbc

theorem string_le_total (a b : String) : decide (a ≤ b) || decide (b ≤ a) := by
  simp only [Bool.or_eq_true, decide_eq_true_eq]
  exact le_total a b

theorem extractData_fst_perm (data : Corpus α) :
    (extractData data).1 ~ data.map Prod.fst :=
  List.mergeSort_perm _ _

theorem extractData_fst_sorted (data : Corpus α) :
    (extractData data).1.Pairwise (· ≤ ·) :=
  (List.sorted_mergeSort string_le_trans string_le_total _).imp
    (fun h => by simpa using h)

theorem extractData_fst_nodup (data : Corpus α)
    (hkeys : (data.map Prod.fst).Nodup) : (extractData data).1.Nodup :=
  (extractData_fst_perm data).nodup_iff.mpr hkeys

theorem extractData_snd_perm (data : Corpus α) :
    (extractData data).2 ~ ((data.map (fun d => d.2.map Prod.fst)).flatten).dedup :=
  List.mergeSort_perm _ _

theorem extractData_snd_sorted (data : Corpus α) :
    (extractData data).2.Pairwise (· ≤ ·) :=
  (List.sorted_mergeSort string_le_trans string_le_total _).imp
    (fun h => by simpa using h)

theorem extractData_snd_nodup (data : Corpus α) : (extractData data).2.Nodup :=
  (extractData_snd_perm data).nodup_iff.mpr (List.nodup_dedup _)

/-- Every tag of every document ends up in the vocabulary. -/
theorem mem_extractData_snd (data : Corpus α) {d : String × List (String × α)}
    {p : String × α} (hd : d ∈ data) (hp : p ∈ d.2) :
    p.1 ∈ (extractData data).2 := by
  rw [(extractData_snd_perm data).mem_iff, List.mem_dedup, List.mem_flatten]
  exact ⟨d.2.map Prod.fst, List.mem_map_of_mem _ hd, List.mem_map_of_mem _ hp⟩

/-- In an association list with duplicate-free keys, `lookup` finds exactly
the stored value (the Python `dict` access `data[url]`). -/
theorem lookup_of_mem (data : Corpus α)
    (hkeys : (data.map Prod.fst).Nodup) {u : String}
    {P : List (String × α)} (hm : (u, P) ∈ data) : data.lookup u = some P := by
  induction data with
  | nil => cases hm
  | cons d rest ih =>
    obtain ⟨k, v⟩ := d
    rw [List.map_cons, List.nodup_cons] at hkeys
    rcases List.mem_cons.mp hm with h1 | h1
    · injection h1 with hu hP
      subst hu
      subst hP
      rw [List.lookup_cons]
      simp
    · have hne : u ≠ k := by
        rintro rfl
        have hmm := List.mem_map_of_mem Prod.fst h1
        exact hkeys.1 hmm
      rw [List.lookup_cons]
      have hbeq : (u == k) = false := beq_eq_false_iff_ne.mpr hne
      rw [hbeq]
      exact ih hkeys.2 h1

theorem storePairs_col_ne (tags : List String) (pairs : List (String × α))
    (col : Nat) (A : Nat → Nat → α) (r c : Nat) (h : c ≠ col) :
    storePairs tags pairs col A r c = A r c := by
  induction pairs generalizing A with
  | nil => rfl
  | cons p rest ih =>
    show storePairs tags rest col (updateM A (tags.indexOf p.1) col p.2) r c = A r c
    rw [ih]
    simp [updateM, h]

theorem storePairs_row_unwritten (tags : List String) (pairs : List (String × α))
    (col : Nat) (A : Nat → Nat → α) (r c : Nat)
    (h : ∀ p ∈ pairs, tags.indexOf p.1 ≠ r) :
    storePairs tags pairs col A r c = A r c := by
  induction pairs generalizing A with
  | nil => rfl
  | cons p rest ih =>
    show storePairs tags rest col (updateM A (tags.indexOf p.1) col p.2) r c = A r c
    rw [ih _ (fun q hq => h q (List.mem_cons_of_mem p hq))]
    simp only [updateM]
    rw [if_neg]
    rintro ⟨hr, -⟩
    exact (h p (List.mem_cons_self p rest)) hr.symm

/-- The value of the matrix cell written for a (tag, count) pair of one
document: with duplicate-free tags in the document, the stored count is
exactly the count paired with the tag. -/
theorem storePairs_write (tags : List String) (pairs : List (String × α))
    (col : Nat) (A : Nat → Nat → α) {t : String} {v : α}
    (hmem : (t, v) ∈ pairs) (hnd : (pairs.map Prod.fst).Nodup)
    (htags : tags.Nodup) (hin : ∀ p ∈ pairs, p.1 ∈ tags) :
    storePairs tags pairs col A (tags.indexOf t) col = v := by
  induction pairs generalizing A with
  | nil => cases hmem
  | cons p rest ih =>
    obtain ⟨pt, pv⟩ := p
    rw [List.map_cons, List.nodup_cons] at hnd
    rcases List.mem_cons.mp hmem with h1 | h1
    · injection h1 with ht hv
      subst ht
      subst hv
      show storePairs tags rest col (updateM A (tags.indexOf t) col v) _ _ = v
      rw [storePairs_row_unwritten]
      · simp [updateM]
      · intro q hq heq
        have hqt : q.1 ∈ tags := hin q (List.mem_cons_of_mem _ hq)
        have htt : t ∈ tags := hin (t, v) (List.mem_cons_self _ _)
        have hq1 : q.1 = t := (List.indexOf_inj hqt htt).mp heq
        have hmq : q.1 ∈ rest.map Prod.fst := List.mem_map_of_mem Prod.fst hq
        rw [hq1] at hmq
        exact hnd.1 hmq
    · exact ih _ h1 hnd.2 (fun q hq => hin q (List.mem_cons_of_mem _ hq))

/-- Changing the base matrix only at the evaluated cell changes `storePairs`
only at that cell. -/
theorem storePairs_cell_congr (tags : List String) (pairs : List (String × α))
    (col : Nat) {A B : Nat → Nat → α} {r c : Nat} (h : B r c = A r c) :
    storePairs tags pairs col B r c = storePairs tags pairs col A r c := by
  induction pairs generalizing A B with
  | nil => exact h
  | cons p rest ih =>
    show storePairs tags rest col _ r c = storePairs tags rest col _ r c
    apply ih
    simp only [updateM]
    split
    · rfl
    · exact h

theorem fillCols_col_lt (data : Corpus α) (tags : List String)
    (rest : List String) (col : Nat) (A : Nat → Nat → α) (r c : Nat)
    (h : c < col) : fillCols data tags rest col A r c = A r c := by
  induction rest generalizing col A with
  | nil => rfl
  | cons u rest ih =>
    show fillCols data tags rest (col + 1) _ r c = A r c
    rw [ih _ _ (by omega), storePairs_col_ne _ _ _ _ _ _ (by omega)]

/-- The final value of a matrix cell in column `col + i` is decided entirely
by the writes of the `i`-th document processed. -/
theorem fillCols_eval (data : Corpus α) (tags : List String) :
    ∀ (rest : List String) (col : Nat) (A : Nat → Nat → α) (i : Nat)
      (h : i < rest.length) (r : Nat),
    fillCols data tags rest col A r (col + i) =
      storePairs tags ((data.lookup (rest.get ⟨i, h⟩)).getD []) (col + i) A r
        (col + i) := by
  intro rest
  induction rest with
  | nil => intro col A i h r; cases h
  | cons u rest ih =>
    intro col A i h r
    cases i with
    | zero =>
      simp only [Nat.add_zero]
      show fillCols data tags rest (col + 1) _ r col = _
      exact fillCols_col_lt _ _ _ _ _ _ _ (by omega)
    | succ i =>
      show fillCols data tags rest (col + 1) _ r (col + (i + 1)) = _
      have harith : col + (i + 1) = (col + 1) + i := by omega
      rw [harith, ih (col + 1) _ i (by simpa using h) r]
      exact storePairs_cell_congr _ _ _
        (storePairs_col_ne _ _ _ _ _ _ (by omega))

/-- The count stored in the matrix at (row of tag `t`, column of url `u`) is
exactly the count paired with `t` in the document `u`. -/
theorem generateCounts_entry (data : Corpus α)
    (hkeys : (data.map Prod.fst).Nodup)
    (hdocs : ∀ d ∈ data, (d.2.map Prod.fst).Nodup)
    {u : String} {P : List (String × α)} {t : String} {v : α}
    (hmd : (u, P) ∈ data) (hmp : (t, v) ∈ P) :
    generateCounts data (extractData data).1 (extractData data).2
      ((extractData data).2.indexOf t) ((extractData data).1.indexOf u) = v := by
  have humem : u ∈ (extractData data).1 := by
    have h1 : u ∈ data.map Prod.fst := List.mem_map_of_mem Prod.fst hmd
    exact (extractData_fst_perm data).mem_iff.mpr h1
  have hidx : (extractData data).1.indexOf u < (extractData data).1.length :=
    List.indexOf_lt_length.mpr humem
  have hev := fillCols_eval data (extractData data).2 (extractData data).1 0
    (fun _ _ => 0) ((extractData data).1.indexOf u) hidx ((extractData data).2.indexOf t)
  simp only [Nat.zero_add] at hev
  rw [generateCounts, hev, List.indexOf_get, lookup_of_mem data hkeys hmd]
  exact storePairs_write (extractData data).2 P _ _ hmp (hdocs (u, P) hmd)
    (extractData_snd_nodup data) (fun p hp => mem_extractData_snd data hmd hp)

/-- A matrix cell whose tag does not occur in its document keeps its initial
value `0`. -/
theorem generateCounts_zero (data : Corpus α)
    (hkeys : (data.map Prod.fst).Nodup) (r c : Nat)
    (hr : r < (extractData data).2.length) (hc : c < (extractData data).1.length)
    (habs : (extractData data).2.getD r "" ∉
      ((data.lookup ((extractData data).1.getD c "")).getD []).map Prod.fst) :
    generateCounts data (extractData data).1 (extractData data).2 r c = 0 := by
  have hev := fillCols_eval data (extractData data).2 (extractData data).1 0
    (fun _ _ => 0) c hc r
  simp only [Nat.zero_add] at hev
  have hget : (extractData data).1.get ⟨c, hc⟩ = (extractData data).1.getD c "" := by
    rw [List.getD_eq_getElem _ _ hc]
    rfl
  rw [generateCounts, hev, hget]
  rw [storePairs_row_unwritten]
  intro p hp heq
  -- the url at column c is a real document of the corpus
  have humem : (extractData data).1.getD c "" ∈ data.map Prod.fst := by
    refine (extractData_fst_perm data).subset ?_
    rw [← hget]
    exact List.get_mem _ _ _
  rw [List.mem_map] at humem
  obtain ⟨d, hd, hdu⟩ := humem
  have hlk : data.lookup ((extractData data).1.getD c "") = some d.2 := by
    rw [← hdu]
    exact lookup_of_mem data hkeys (by rw [show (d.1, d.2) = d from rfl]; exact hd)
  rw [hlk] at hp habs
  simp only [Option.getD_some] at hp habs
  have hpt : p.1 ∈ (extractData data).2 := mem_extractData_snd data hd hp
  have hidx2 : (extractData data).2.indexOf p.1 < (extractData data).2.length :=
    List.indexOf_lt_length.mpr hpt
  have : (extractData data).2.getD r "" = p.1 := by
    rw [← heq, List.getD_eq_getElem _ _ (heq ▸ hidx2)]
    exact List.getElem_indexOf (heq ▸ hidx2)
  exact habs (this ▸ List.mem_map_of_mem Prod.fst hp)

end BuilderFacts

/-! ## Claim C5: the matrix builder contract -/

/-- **C5.**  `extractData` produces a lexicographically sorted,
duplicate-free vocabulary and document index, and `generateCounts` fills the
matrix so that the cell at (row of term `t`, column of document `u`) carries
the count paired with `t` in document `u`, and `0` wherever the term does not
occur in the document.  Hypotheses: the corpus is a `dict` (duplicate-free
keys) and each document lists every tag at most once (the count of a term in
the document is then well defined). -/
theorem c5_matrix_builder (data : Corpus ℝ)
    (hkeys : (data.map Prod.fst).Nodup)
    (hdocs : ∀ d ∈ data, (d.2.map Prod.fst).Nodup) :
    ((extractData data).1.Pairwise (· ≤ ·) ∧ (extractData data).1.Nodup) ∧
    ((extractData data).2.Pairwise (· ≤ ·) ∧ (extractData data).2.Nodup) ∧
    (∀ (u t : String) (P : List (String × ℝ)) (v : ℝ), (u, P) ∈ data → (t, v) ∈ P →
      generateCounts data (extractData data).1 (extractData data).2
        ((extractData data).2.indexOf t) ((extractData data).1.indexOf u) = v) ∧
    (∀ r c : Nat, r < (extractData data).2.length → c < (extractData data).1.length →
      (extractData data).2.getD r "" ∉
        ((data.lookup ((extractData data).1.getD c "")).getD []).map Prod.fst →
      generateCounts data (extractData data).1 (extractData data).2 r c = 0) :=
  ⟨⟨extractData_fst_sorted data, extractData_fst_nodup data hkeys⟩,
   ⟨extractData_snd_sorted data, extractData_snd_nodup data⟩,
   fun _ _ _ _ hmd hmp => generateCounts_entry data hkeys hdocs hmd hmp,
   fun r c hr hc habs => generateCounts_zero data hkeys r c hr hc habs⟩

theorem c5_matrix_builder_witness :
    ((extractData ([("b", [("y", 2)]), ("a", [("x", 3)])] : Corpus ℝ)).1.Pairwise (· ≤ ·) ∧
      (extractData ([("b", [("y", 2)]), ("a", [("x", 3)])] : Corpus ℝ)).1.Nodup) ∧
    generateCounts ([("b", [("y", 2)]), ("a", [("x", 3)])] : Corpus ℝ)
      (extractData ([("b", [("y", 2)]), ("a", [("x", 3)])] : Corpus ℝ)).1
      (extractData ([("b", [("y", 2)]), ("a", [("x", 3)])] : Corpus ℝ)).2
      ((extractData ([("b", [("y", 2)]), ("a", [("x", 3)])] : Corpus ℝ)).2.indexOf "x")
      ((extractData ([("b", [("y", 2)]), ("a", [("x", 3)])] : Corpus ℝ)).1.indexOf "a") = 3 := by
  have h := c5_matrix_builder ([("b", [("y", 2)]), ("a", [("x", 3)])] : Corpus ℝ)
    (by decide)
    (by intro d hd
        simp only [List.mem_cons, List.not_mem_nil, or_false] at hd
        rcases hd with rfl | rfl <;> decide)
  exact ⟨h.1, h.2.2.1 "a" "x" [("x", 3)] 3 (by simp) (by simp)⟩

/-! ## Claim C8: no count validation in `generateCounts` -/

/-- **C8, counterexample.**  The claim says a non-positive count makes the
matrix builder fail with `MalformedCorpusError`.  It does not: lines 106-116
perform no validation whatsoever, and the non-positive count `-1` is stored
in the matrix verbatim. -/
theorem c8_no_validation_counterexample :
    generateCounts ([("d", [("t", (-1 : ℝ))])] : Corpus ℝ) ["d"] ["t"] 0 0 = -1 :=
  rfl

/-- **C8, amended.**  `generateCounts` accepts any count value: a
non-positive count in a document's term list is neither rejected nor
coerced — it is written into the matrix unchanged.  (A *non-numeric* count
cannot be expressed in this typed embedding at all; in the source it would
make the numpy store raise a `ValueError`, still not a
`MalformedCorpusError`.) -/
theorem c8_no_validation (data : Corpus ℝ)
    (hkeys : (data.map Prod.fst).Nodup)
    (hdocs : ∀ d ∈ data, (d.2.map Prod.fst).Nodup)
    (u t : String) (P : List (String × ℝ)) (v : ℝ)
    (hmd : (u, P) ∈ data) (hmp : (t, v) ∈ P) (hv : v ≤ 0) :
    generateCounts data (extractData data).1 (extractData data).2
      ((extractData data).2.indexOf t) ((extractData data).1.indexOf u) = v :=
  generateCounts_entry data hkeys hdocs hmd hmp

theorem c8_no_validation_witness :
    (-1 : ℝ) ≤ 0 ∧
    generateCounts ([("d", [("t", (-1 : ℝ))])] : Corpus ℝ)
      (extractData ([("d", [("t", (-1 : ℝ))])] : Corpus ℝ)).1
      (extractData ([("d", [("t", (-1 : ℝ))])] : Corpus ℝ)).2
      ((extractData ([("d", [("t", (-1 : ℝ))])] : Corpus ℝ)).2.indexOf "t")
      ((extractData ([("d", [("t", (-1 : ℝ))])] : Corpus ℝ)).1.indexOf "d") = -1 :=
  ⟨by norm_num,
   c8_no_validation ([("d", [("t", (-1 : ℝ))])] : Corpus ℝ)
     (by decide)
     (by intro d hd
         simp only [List.mem_cons, List.not_mem_nil, or_false] at hd
         subst hd
         decide)
     "d" "t" [("t", (-1 : ℝ))] (-1)
     (List.mem_cons_self _ _) (List.mem_cons_self _ _) (by norm_num)⟩

/-! ## Infrastructure: vectors, dot products and norms -/

section VectorFacts

variable {α : Type} [LinearOrderedField α]

theorem dotl_cons (x y : α) (xs ys : List α) :
    dotl (x :: xs) (y :: ys) = x * y + dotl xs ys := by
  simp [dotl]

theorem dotl_zero_left (xs ys : List α) (h : ∀ x ∈ xs, x = 0) :
    dotl xs ys = 0 := by
  induction xs generalizing ys with
  | nil => simp [dotl]
  | cons x xs ih =>
    cases ys with
    | nil => simp [dotl]
    | cons y ys2 =>
      rw [dotl_cons, h x (List.mem_cons_self _ _), zero_mul, zero_add]
      exact ih ys2 (fun z hz => h z (List.mem_cons_of_mem _ hz))

theorem dotl_zero_right (xs ys : List α) (h : ∀ y ∈ ys, y = 0) :
    dotl xs ys = 0 := by
  induction xs generalizing ys with
  | nil => simp [dotl]
  | cons x xs ih =>
    cases ys with
    | nil => simp [dotl]
    | cons y ys2 =>
      rw [dotl_cons, h y (List.mem_cons_self _ _), mul_zero, zero_add]
      exact ih ys2 (fun z hz => h z (List.mem_cons_of_mem _ hz))

theorem dotl_self_nonneg (v : List α) : 0 ≤ dotl v v := by
  induction v with
  | nil => simp [dotl]
  | cons x xs ih =>
    rw [dotl_cons]
    exact add_nonneg (mul_self_nonneg x) ih

theorem dotl_map_div (v : List α) (n : α) :
    dotl (v.map (· / n)) (v.map (· / n)) = dotl v v / (n * n) := by
  induction v with
  | nil => simp [dotl]
  | cons x xs ih =>
    simp only [List.map_cons, dotl_cons, ih, div_mul_div_comm, add_div]

/-- Dividing a real vector by its (nonzero) Euclidean norm yields a unit
vector.  This is the exact-arithmetic content of the two `/= norm(...)`
normalisations in the source (lines 79 and 122). -/
theorem norml_div_norml (v : List ℝ) (h : norml Real.sqrt v ≠ 0) :
    norml Real.sqrt (v.map (· / norml Real.sqrt v)) = 1 := by
  rw [norml, dotl_map_div, Real.sqrt_div (dotl_self_nonneg v)]
  have hn : 0 ≤ norml Real.sqrt v := Real.sqrt_nonneg (dotl v v)
  rw [Real.sqrt_mul_self hn]
  show norml Real.sqrt v / norml Real.sqrt v = 1
  exact div_self h

/-- A query whose terms are all unknown leaves the query vector at
`zeros(no_tags)` (the `try/except: pass` on lines 61-63 swallows every
lookup failure). -/
theorem bqv_all_unknown (e : SearchEngine α) (kws : List String)
    (h : ∀ kw ∈ kws, kw ∉ e.tags) :
    build_query_vector e kws = List.replicate e.tags.length 0 := by
  rw [build_query_vector]
  induction kws with
  | nil => rfl
  | cons k rest ih =>
    rw [List.foldl_cons, if_neg (h k (List.mem_cons_self _ _))]
    exact ih (fun kw hkw => h kw (List.mem_cons_of_mem _ hkw))

theorem matVec_zero (M : List (List α)) (v : List α) (h : ∀ x ∈ v, x = 0) :
    ∀ x ∈ matVec M v, x = 0 := by
  intro x hx
  rw [matVec, List.mem_map] at hx
  obtain ⟨row, -, rfl⟩ := hx
  exact dotl_zero_right row v h

/-- The cosine distance of any document column to the zero vector is
`arccos 0` — the numerator of the quotient is `0`, and in this
exact-arithmetic embedding `0 / 0 = 0` (the source's IEEE arithmetic warns
and produces `nan` instead; either way, the same constant for every
document). -/
theorem cosDist_zero_query (p : List ℝ) (qhat : List ℝ) (h : ∀ x ∈ qhat, x = 0) :
    cosDist Real.sqrt Real.arccos p qhat = Real.arccos 0 := by
  rw [cosDist, dotl_zero_left qhat p h, zero_div]

end VectorFacts

/-! ## Claim C2: behaviour on all-unknown queries -/

/-- Shared helper: on an all-unknown query, the projection degenerates to the
zero vector and `search` returns the first `no_results` urls in document-index
order (no exception is ever raised; contrast the claimed `EmptyQueryError`). -/
theorem search_all_unknown (e : SearchEngine ℝ) (kws : List String)
    (h : ∀ kw ∈ kws, kw ∉ e.tags) :
    project Real.sqrt e (build_query_vector e kws) =
      List.replicate e.Si.length 0 ∧
    search Real.sqrt Real.arccos e kws = e.urls.take e.no_results := by
  have hz0 : ∀ x ∈ List.replicate e.tags.length (0 : ℝ), x = 0 :=
    fun x hx => List.eq_of_mem_replicate hx
  have hz1 : ∀ x ∈ matVec e.Ut (List.replicate e.tags.length (0 : ℝ)), x = 0 :=
    matVec_zero _ _ hz0
  have hz2 : ∀ x ∈ matVec e.Si (matVec e.Ut (List.replicate e.tags.length (0 : ℝ))),
      x = 0 := matVec_zero _ _ hz1
  have hproj : project Real.sqrt e (build_query_vector e kws) =
      List.replicate e.Si.length 0 := by
    rw [bqv_all_unknown e kws h, project]
    have hmem0 : ∀ b ∈ (matVec e.Si (matVec e.Ut
        (List.replicate e.tags.length (0 : ℝ)))).map
          (· / norml Real.sqrt (matVec e.Si (matVec e.Ut
            (List.replicate e.tags.length (0 : ℝ))))), b = 0 := by
      intro b hb
      rw [List.mem_map] at hb
      obtain ⟨x, hx, rfl⟩ := hb
      rw [hz2 x hx, zero_div]
    have hlen : ((matVec e.Si (matVec e.Ut
        (List.replicate e.tags.length (0 : ℝ)))).map
          (· / norml Real.sqrt (matVec e.Si (matVec e.Ut
            (List.replicate e.tags.length (0 : ℝ)))))).length = e.Si.length := by
      simp [matVec]
    rw [List.eq_replicate_of_mem hmem0, hlen]
  refine ⟨hproj, ?_⟩
  rw [search, hproj, nearest_urls_eq_take_map, rankPairs]
  have hconstd : ∀ i, cosDist Real.sqrt Real.arccos (matCol e.Vt i)
      (List.replicate e.Si.length (0 : ℝ)) = Real.arccos 0 :=
    fun i => cosDist_zero_query _ _ (fun x hx => List.eq_of_mem_replicate hx)
  rw [rankLoop_const hconstd]
  have hmap : (distPairs (fun i => cosDist Real.sqrt Real.arccos (matCol e.Vt i)
      (List.replicate e.Si.length (0 : ℝ))) e.urls.length).map
        (fun p => e.urls.getD p.1 "") = e.urls := by
    rw [distPairs, List.map_map]
    simp only [Function.comp_def]
    exact mapRange_getD e.urls ""
  rw [hmap]
  rfl

/-- **C2, counterexample.**  The claim says an all-unknown query makes the
search fail with `EmptyQueryError`.  The source has no such error: the
zero-norm division goes through (producing `nan`s in IEEE arithmetic; the
zero vector in this exact embedding) and `search` returns an ordinary
ranking — here both documents, in index order. -/
theorem c2_empty_query_counterexample :
    ("zzz" ∉ (⟨["a", "b"], ["t"], [[1]], [[1]], [[1, 0]], 1, 5⟩ :
        SearchEngine ℝ).tags) ∧
    search Real.sqrt Real.arccos
        (⟨["a", "b"], ["t"], [[1]], [[1]], [[1, 0]], 1, 5⟩ : SearchEngine ℝ)
        ["zzz"] = ["a", "b"] := by
  refine ⟨by decide, ?_⟩
  rw [(search_all_unknown
    (⟨["a", "b"], ["t"], [[1]], [[1]], [[1, 0]], 1, 5⟩ : SearchEngine ℝ)
    ["zzz"] (by decide)).2]
  rfl

/-- **C2, amended.**  On a query whose terms are all absent from the
vocabulary, the code does *not* raise: `project` builds the zero query
vector, divides it by its zero norm (exact arithmetic: the zero vector;
source IEEE arithmetic: a `nan` vector plus a runtime warning), and
`search` returns the first `no_results` urls in document-index order —
an arbitrary but deterministic ranking rather than an `EmptyQueryError`. -/
theorem c2_empty_query (e : SearchEngine ℝ) (kws : List String)
    (h : ∀ kw ∈ kws, kw ∉ e.tags) :
    project Real.sqrt e (build_query_vector e kws) =
      List.replicate e.Si.length 0 ∧
    search Real.sqrt Real.arccos e kws = e.urls.take e.no_results :=
  search_all_unknown e kws h

theorem c2_empty_query_witness :
    (∀ kw ∈ ["q"], kw ∉ (⟨["u"], ["w"], [[1]], [[1]], [[1]], 1, 2⟩ :
        SearchEngine ℝ).tags) ∧
    (project Real.sqrt (⟨["u"], ["w"], [[1]], [[1]], [[1]], 1, 2⟩ : SearchEngine ℝ)
        (build_query_vector
          (⟨["u"], ["w"], [[1]], [[1]], [[1]], 1, 2⟩ : SearchEngine ℝ) ["q"]) =
      List.replicate 1 0 ∧
    search Real.sqrt Real.arccos
        (⟨["u"], ["w"], [[1]], [[1]], [[1]], 1, 2⟩ : SearchEngine ℝ) ["q"] =
      (["u"] : List String).take 2) :=
  ⟨by decide,
   c2_empty_query (⟨["u"], ["w"], [[1]], [[1]], [[1]], 1, 2⟩ : SearchEngine ℝ)
     ["q"] (by decide)⟩

/-! ## Claim C3: `normalize_columns` and zero columns -/

/-- **C3, counterexample.**  The claim says a matrix with an all-zero column
makes `normalize_columns` fail with `EmptyDocumentError`.  It does not:
lines 118-122 divide unconditionally.  On the 1×1 zero matrix the division
is performed and a value is returned (the zero entry in exact arithmetic;
`nan` plus a runtime warning in the source's IEEE arithmetic) — no error of
any kind. -/
theorem c3_zero_column_counterexample :
    (∀ r < 1, (fun _ _ => (0 : ℝ)) r 0 = 0) ∧
    normalize_columns Real.sqrt 1 1 (fun _ _ => (0 : ℝ)) 0 0 = 0 := by
  refine ⟨fun r _ => rfl, ?_⟩
  rw [normalize_columns, if_pos (by omega)]
  exact zero_div _

/-- **C3, amended.**  `normalize_columns` performs no zero-norm check: a
column that is entirely zero has norm `0`, the division is performed anyway
and the column passes through degenerate (zero under this embedding's
`x / 0 = 0` convention; `nan` in the source's IEEE arithmetic) with no
`EmptyDocumentError`; every column whose norm is nonzero is scaled to unit
Euclidean norm as intended. -/
theorem c3_no_zero_column_check (A : Nat → Nat → ℝ) (rows cols c0 : Nat)
    (hc : c0 < cols) (hz : ∀ r < rows, A r c0 = 0) :
    norml Real.sqrt (columnList A rows c0) = 0 ∧
    (∀ r < rows, normalize_columns Real.sqrt rows cols A r c0 = 0) ∧
    (∀ c < cols, norml Real.sqrt (columnList A rows c) ≠ 0 →
      norml Real.sqrt (columnList (normalize_columns Real.sqrt rows cols A) rows c)
        = 1) := by
  refine ⟨?_, ?_, ?_⟩
  · rw [norml, dotl_zero_left, Real.sqrt_zero]
    intro x hx
    rw [columnList, List.mem_map] at hx
    obtain ⟨r, hr, rfl⟩ := hx
    exact hz r (List.mem_range.mp hr)
  · intro r hr
    rw [normalize_columns, if_pos hc, hz r hr]
    exact zero_div _
  · intro c hcc hn
    have hcol : columnList (normalize_columns Real.sqrt rows cols A) rows c =
        (columnList A rows c).map (· / norml Real.sqrt (columnList A rows c)) := by
      rw [columnList, columnList, List.map_map]
      apply List.map_congr_left
      intro r hr
      simp only [Function.comp_def, normalize_columns, if_pos hcc]
      rfl
    rw [hcol]
    exact norml_div_norml _ hn

theorem c3_no_zero_column_check_witness :
    norml Real.sqrt (columnList (fun _ c => if c = 0 then (0 : ℝ) else 1) 1 0) = 0 ∧
    (∀ r < 1, normalize_columns Real.sqrt 1 2
      (fun _ c => if c = 0 then (0 : ℝ) else 1) r 0 = 0) := by
  have h := c3_no_zero_column_check (fun _ c => if c = 0 then (0 : ℝ) else 1) 1 2 0
    (by omega) (by intro r hr; norm_num)
  exact ⟨h.1, h.2.1⟩

/-! ## Infrastructure for claim C4: the query vector characterisation -/

section QueryFacts

variable {α : Type} [LinearOrderedField α]

theorem bqv_length (e : SearchEngine α) (kws : List String) :
    (build_query_vector e kws).length = e.tags.length := by
  rw [build_query_vector]
  suffices h : ∀ (ks : List String) (q : List α),
      (ks.foldl (fun q key =>
        if key ∈ e.tags then q.set (e.tags.indexOf key) 1 else q) q).length =
      q.length by
    rw [h]
    exact List.length_replicate _ _
  intro ks
  induction ks with
  | nil => intro q; rfl
  | cons k rest ih =>
    intro q
    rw [List.foldl_cons, ih]
    by_cases hk : k ∈ e.tags
    · rw [if_pos hk, List.length_set]
    · rw [if_neg hk]

/-- The query vector is the 0/1 indicator of "this vocabulary entry occurs in
the query": 1 exactly at the rows of query terms present in the vocabulary,
0 elsewhere; unknown terms change nothing. -/
theorem bqv_getD (e : SearchEngine α) (kws : List String) (hnd : e.tags.Nodup)
    (i : Nat) (hi : i < e.tags.length) :
    (build_query_vector e kws).getD i 0 =
      if e.tags.getD i "" ∈ kws then 1 else 0 := by
  rw [build_query_vector]
  suffices h : ∀ (ks : List String) (q : List α), q.length = e.tags.length →
      (ks.foldl (fun q key =>
          if key ∈ e.tags then q.set (e.tags.indexOf key) 1 else q) q).getD i 0 =
        if e.tags.getD i "" ∈ ks then 1 else q.getD i 0 by
    rw [h kws _ (List.length_replicate _ _)]
    by_cases hmem : e.tags.getD i "" ∈ kws
    · rw [if_pos hmem, if_pos hmem]
    · rw [if_neg hmem, if_neg hmem,
        List.getD_eq_getElem _ _ (by simpa using hi), List.getElem_replicate]
  have htagsmem : e.tags.getD i "" ∈ e.tags := by
    rw [List.getD_eq_getElem _ _ hi]
    exact List.getElem_mem _
  intro ks
  induction ks with
  | nil =>
    intro q hq
    rw [List.foldl_nil, if_neg (List.not_mem_nil _)]
  | cons k rest ih =>
    intro q hq
    rw [List.foldl_cons]
    by_cases hk : k ∈ e.tags
    · rw [if_pos hk, ih _ (by rw [List.length_set]; exact hq)]
      by_cases hmem : e.tags.getD i "" ∈ rest
      · rw [if_pos hmem, if_pos (List.mem_cons_of_mem _ hmem)]
      · rw [if_neg hmem]
        by_cases hik : e.tags.indexOf k = i
        · have hkeq : e.tags.getD i "" = k := by
            subst hik
            rw [List.getD_eq_getElem _ _ hi]
            exact List.getElem_indexOf hi
          rw [if_pos (by rw [hkeq]; exact List.mem_cons_self _ _), hik,
            List.getD_eq_getElem _ _ (by rw [List.length_set, hq]; exact hi),
            List.getElem_set_self]
        · have hne : e.tags.getD i "" ≠ k := by
            intro heq
            apply hik
            have h1 : e.tags.indexOf k < e.tags.length :=
              List.indexOf_lt_length.mpr hk
            have h2 : e.tags.get ⟨e.tags.indexOf k, h1⟩ = k := List.indexOf_get h1
            have h3 : e.tags.get ⟨i, hi⟩ = k := by
              rw [List.get_eq_getElem, ← List.getD_eq_getElem _ "" hi]
              exact heq
            have h4 : e.tags.get ⟨e.tags.indexOf k, h1⟩ = e.tags.get ⟨i, hi⟩ := by
              rw [h2, h3]
            have h5 := List.nodup_iff_injective_get.mp hnd h4
            exact congrArg Fin.val h5
          rw [if_neg (by
            rw [List.mem_cons]
            rintro (h | h)
            · exact hne h
            · exact hmem h),
            List.getD_eq_getElem _ _ (by rw [List.length_set, hq]; exact hi),
            List.getElem_set_ne hik, ← List.getD_eq_getElem _ _ (by rw [hq]; exact hi)]
    · rw [if_neg hk, ih _ hq]
      by_cases hmem : e.tags.getD i "" ∈ rest
      · rw [if_pos hmem, if_pos (List.mem_cons_of_mem _ hmem)]
      · rw [if_neg hmem, if_neg (by
          rw [List.mem_cons]
          rintro (heq | hr)
          · exact hk (heq ▸ htagsmem)
          · exact hmem hr)]

end QueryFacts

/-! ## Claim C4: the query projector -/

/-- **C4, counterexample.**  The claim says every projected query built from
a term list that is not entirely unknown has unit norm.  False: a known term
whose 0/1 vector lies in the kernel of `S_k^{-1} U_k^T` also projects to the
zero vector.  Here the engine retains `k = 1` component with
`U_k^T = [[1, 0]]` over the two-term vocabulary `["a", "b"]` (the truncated
SVD of the two-document identity corpus), and the known query `["b"]`
projects to norm `0`, not `1`. -/
theorem c4_unit_norm_counterexample :
    ("b" ∈ (⟨["u"], ["a", "b"], [[1, 0]], [[1]], [[1]], 1, 5⟩ :
        SearchEngine ℝ).tags) ∧
    norml Real.sqrt (project Real.sqrt
      (⟨["u"], ["a", "b"], [[1, 0]], [[1]], [[1]], 1, 5⟩ : SearchEngine ℝ)
      (build_query_vector
        (⟨["u"], ["a", "b"], [[1, 0]], [[1]], [[1]], 1, 5⟩ : SearchEngine ℝ)
        ["b"])) = 0 ∧
    (0 : ℝ) ≠ 1 := by
  refine ⟨by decide, ?_, by norm_num⟩
  have hq : build_query_vector
      (⟨["u"], ["a", "b"], [[1, 0]], [[1]], [[1]], 1, 5⟩ : SearchEngine ℝ) ["b"] =
      [0, 1] := rfl
  rw [hq]
  have h1 : matVec ([[(1 : ℝ), 0]]) [0, 1] = [0] := by
    norm_num [matVec, dotl]
  have h2 : matVec ([[(1 : ℝ)]]) [0] = [0] := by
    norm_num [matVec, dotl]
  show norml Real.sqrt ((matVec [[(1 : ℝ)]] (matVec [[(1 : ℝ), 0]] [0, 1])).map
    (· / norml Real.sqrt (matVec [[(1 : ℝ)]] (matVec [[(1 : ℝ), 0]] [0, 1])))) = 0
  rw [h1, h2]
  norm_num [norml, dotl, Real.sqrt_zero]

/-- **C4, amended.**  The projector does build the 0/1 indicator vector over
the vocabulary (1 exactly at positions of query terms present in the
vocabulary, unknown terms ignored without error) and returns the
normalisation of `S_k^{-1} · U_k^T · q`; the result has unit Euclidean norm
whenever the *projected* vector `S_k^{-1} · U_k^T · q` is non-degenerate
(nonzero norm) — which a not-all-unknown term list does not by itself
guarantee (see the counterexample). -/
theorem c4_projector (e : SearchEngine ℝ) (kws : List String)
    (hnd : e.tags.Nodup)
    (hq : norml Real.sqrt
      (matVec e.Si (matVec e.Ut (build_query_vector e kws))) ≠ 0) :
    (build_query_vector e kws).length = e.tags.length ∧
    (∀ i, i < e.tags.length →
      (build_query_vector e kws).getD i 0 =
        if e.tags.getD i "" ∈ kws then 1 else 0) ∧
    project Real.sqrt e (build_query_vector e kws) =
      (matVec e.Si (matVec e.Ut (build_query_vector e kws))).map
        (· / norml Real.sqrt
          (matVec e.Si (matVec e.Ut (build_query_vector e kws)))) ∧
    norml Real.sqrt (project Real.sqrt e (build_query_vector e kws)) = 1 := by
  refine ⟨bqv_length e kws, fun i hi => bqv_getD e kws hnd i hi, rfl, ?_⟩
  show norml Real.sqrt ((matVec e.Si (matVec e.Ut (build_query_vector e kws))).map
    (· / norml Real.sqrt (matVec e.Si (matVec e.Ut (build_query_vector e kws))))) = 1
  exact norml_div_norml _ hq

theorem c4_projector_witness :
    (["a", "b"] : List String).Nodup ∧
    norml Real.sqrt (project Real.sqrt
      (⟨["u"], ["a", "b"], [[1, 0]], [[1]], [[1]], 1, 5⟩ : SearchEngine ℝ)
      (build_query_vector
        (⟨["u"], ["a", "b"], [[1, 0]], [[1]], [[1]], 1, 5⟩ : SearchEngine ℝ)
        ["a"])) = 1 := by
  have hq : norml Real.sqrt (matVec
      (⟨["u"], ["a", "b"], [[1, 0]], [[1]], [[1]], 1, 5⟩ : SearchEngine ℝ).Si
      (matVec (⟨["u"], ["a", "b"], [[1, 0]], [[1]], [[1]], 1, 5⟩ :
          SearchEngine ℝ).Ut
        (build_query_vector
          (⟨["u"], ["a", "b"], [[1, 0]], [[1]], [[1]], 1, 5⟩ : SearchEngine ℝ)
          ["a"]))) ≠ 0 := by
    have hq1 : build_query_vector
        (⟨["u"], ["a", "b"], [[1, 0]], [[1]], [[1]], 1, 5⟩ : SearchEngine ℝ)
        ["a"] = [1, 0] := rfl
    show norml Real.sqrt (matVec [[(1 : ℝ)]] (matVec [[(1 : ℝ), 0]]
      (build_query_vector
        (⟨["u"], ["a", "b"], [[1, 0]], [[1]], [[1]], 1, 5⟩ : SearchEngine ℝ)
        ["a"]))) ≠ 0
    rw [hq1]
    have h1 : matVec ([[(1 : ℝ), 0]]) [1, 0] = [1] := by
      norm_num [matVec, dotl]
    have h2 : matVec ([[(1 : ℝ)]]) [1] = [1] := by
      norm_num [matVec, dotl]
    rw [h1, h2]
    norm_num [norml, dotl, Real.sqrt_one]
  exact ⟨by decide,
    (c4_projector (⟨["u"], ["a", "b"], [[1, 0]], [[1]], [[1]], 1, 5⟩ :
      SearchEngine ℝ) ["a"] (by decide) hq).2.2.2⟩

/-! ## Claim C1: the ranking order -/

/-- **C1.**  For every engine whose url index was built by `extractData` from
a corpus (hence strictly sorted, since `dict` keys are distinct) and every
projected query, the ranking list produced by the `nearest_urls` loop is
ordered ascending by cosine distance, and any two entries at exactly equal
distances appear in ascending document-id order (the stable sort keeps ties
in document-index order, and the index order *is* the id order because the
url list is sorted).  The returned result is the prefix of that ordered
list, and the whole pipeline is a pure function of corpus and query, so the
same corpus and query always produce the same output — determinism is
definitional in this embedding. -/
theorem c1_ranking (e : SearchEngine ℝ) (data : Corpus ℝ)
    (hkeys : (data.map Prod.fst).Nodup)
    (hurls : e.urls = (extractData data).1)
    (qhat : List ℝ) (o : Option Nat) :
    ((rankPairs Real.sqrt Real.arccos e qhat).map
        (fun p => (e.urls.getD p.1 "", p.2))).Pairwise
      (fun a b => a.2 < b.2 ∨ (a.2 = b.2 ∧ a.1 < b.1)) ∧
    (rankPairs Real.sqrt Real.arccos e qhat).map (fun p => e.urls.getD p.1 "") ~
      e.urls ∧
    nearest_urls Real.sqrt Real.arccos e qhat o =
      ((rankPairs Real.sqrt Real.arccos e qhat).map
        (fun p => e.urls.getD p.1 "")).take (effResults e o) := by
  have hsorturl : e.urls.Pairwise (· < ·) := by
    rw [hurls]
    have h1 := extractData_fst_sorted data
    have h2 := extractData_fst_nodup data hkeys
    exact (h1.and h2).imp (fun h => lt_of_le_of_ne h.1 h.2)
  obtain ⟨hperm, hsnd, htie⟩ := rankLoop_char
    (fun i => cosDist Real.sqrt Real.arccos (matCol e.Vt i) qhat) e.urls.length
  have hmemlt : ∀ p ∈ rankPairs Real.sqrt Real.arccos e qhat,
      p.1 < e.urls.length := by
    intro p hp
    have hmem : p ∈ distPairs
        (fun i => cosDist Real.sqrt Real.arccos (matCol e.Vt i) qhat)
        e.urls.length := hperm.subset hp
    rw [distPairs, List.mem_map] at hmem
    obtain ⟨i, hi, rfl⟩ := hmem
    exact List.mem_range.mp hi
  refine ⟨?_, rankPairs_map_perm _ _ e qhat, nearest_urls_eq_take_map _ _ e qhat o⟩
  rw [List.pairwise_map, pairwise_iff_forall_sublist]
  intro p q hsub
  have hple : p.2 ≤ q.2 := pairwise_iff_forall_sublist.mp hsnd hsub
  have hptie : p.2 = q.2 → p.1 < q.1 := pairwise_iff_forall_sublist.mp htie hsub
  have hpmem : p ∈ rankPairs Real.sqrt Real.arccos e qhat := hsub.subset (by simp)
  have hqmem : q ∈ rankPairs Real.sqrt Real.arccos e qhat := hsub.subset (by simp)
  rcases lt_or_eq_of_le hple with hlt | heq
  · exact Or.inl hlt
  · refine Or.inr ⟨heq, ?_⟩
    have hij : p.1 < q.1 := hptie heq
    have hpl : p.1 < e.urls.length := hmemlt p hpmem
    have hql : q.1 < e.urls.length := hmemlt q hqmem
    rw [List.getD_eq_getElem _ _ hpl, List.getD_eq_getElem _ _ hql]
    exact List.pairwise_iff_getElem.mp hsorturl p.1 q.1 hpl hql hij

theorem c1_ranking_witness :
    ((([("a", [("t", (1 : ℝ))])] : Corpus ℝ).map Prod.fst).Nodup ∧
      (["a"] : List String) =
        (extractData ([("a", [("t", (1 : ℝ))])] : Corpus ℝ)).1) ∧
    (rankPairs Real.sqrt Real.arccos
        (⟨["a"], ["t"], [[1]], [[1]], [[1]], 1, 5⟩ : SearchEngine ℝ) [1]).map
      (fun p => (["a"] : List String).getD p.1 "") ~ (["a"] : List String) :=
  ⟨⟨by decide, by simp [extractData]⟩,
   (c1_ranking (⟨["a"], ["t"], [[1]], [[1]], [[1]], 1, 5⟩ : SearchEngine ℝ)
     ([("a", [("t", (1 : ℝ))])] : Corpus ℝ) (by decide) (by simp [extractData])
     [1] none).2.1⟩

/-! ## Claim C6: the argument of `arccos`

The source passes `dot(q, p)/(norm(q)*norm(p))` to `arccos` with no clamping
(line 94).  Whether that ever leaves the domain `[-1, 1]` is a question about
IEEE floating-point rounding, which an exact-arithmetic embedding cannot
express: over the reals the quotient provably always lies in `[-1, 1]`
(Cauchy–Schwarz, plus the `x / 0 = 0` convention for degenerate norms), so a
clamp is extensionally invisible here.  The lemmas below record that
exact-arithmetic fact; the float-overshoot part of the claim is out of the
embedding's reach. -/

theorem dotl_sq_le (x y : List ℝ) : (dotl x y) ^ 2 ≤ dotl x x * dotl y y := by
  induction x generalizing y with
  | nil => simp [dotl]
  | cons a xs ih =>
    cases y with
    | nil => simp [dotl]
    | cons b ys =>
      rw [dotl_cons, dotl_cons, dotl_cons]
      have hA := dotl_self_nonneg xs
      have hB := dotl_self_nonneg ys
      have hi := ih ys
      rcases eq_or_lt_of_le hB with hB0 | hBpos
      · have hD2 : (dotl xs ys) ^ 2 = 0 :=
          le_antisymm (by nlinarith) (sq_nonneg _)
        have hD : dotl xs ys = 0 := by
          exact pow_eq_zero_iff (by norm_num) |>.mp hD2
        rw [hD, ← hB0]
        nlinarith [mul_nonneg hA (mul_self_nonneg b)]
      · have hid : dotl ys ys *
            ((a * a + dotl xs xs) * (b * b + dotl ys ys) -
              (a * b + dotl xs ys) ^ 2) =
            (a * dotl ys ys - b * dotl xs ys) ^ 2 +
              (b * b + dotl ys ys) *
                (dotl xs xs * dotl ys ys - dotl xs ys ^ 2) := by
          ring
        have hrhs : 0 ≤ (a * dotl ys ys - b * dotl xs ys) ^ 2 +
            (b * b + dotl ys ys) *
              (dotl xs xs * dotl ys ys - dotl xs ys ^ 2) :=
          add_nonneg (sq_nonneg _)
            (mul_nonneg (add_nonneg (mul_self_nonneg b) hB) (sub_nonneg.mpr hi))
        nlinarith [hid, hrhs, hBpos]

/-- In exact arithmetic, the quotient that `cosDist` feeds to `arccos` always
lies in `[-1, 1]` — with no clamp in the code.  (Degenerate zero norms fall
under the embedding's `x / 0 = 0`; in the source's IEEE arithmetic they give
`nan` instead, again a float-only phenomenon.) -/
theorem cosDist_arg_abs_le (p q : List ℝ) :
    |dotl q p / (norml Real.sqrt q * norml Real.sqrt p)| ≤ 1 := by
  have hq0 : 0 ≤ norml Real.sqrt q := Real.sqrt_nonneg _
  have hp0 : 0 ≤ norml Real.sqrt p := Real.sqrt_nonneg _
  have hn0 : 0 ≤ norml Real.sqrt q * norml Real.sqrt p := mul_nonneg hq0 hp0
  rcases eq_or_lt_of_le hn0 with h0 | hpos
  · rw [← h0, div_zero, abs_zero]
    norm_num
  · rw [abs_div, abs_of_pos hpos, div_le_one hpos]
    have hsq : (dotl q p) ^ 2 ≤ (norml Real.sqrt q * norml Real.sqrt p) ^ 2 := by
      have h1 : (norml Real.sqrt q * norml Real.sqrt p) ^ 2 =
          dotl q q * dotl p p := by
        rw [mul_pow, norml, norml, Real.sq_sqrt (dotl_self_nonneg q),
          Real.sq_sqrt (dotl_self_nonneg p)]
      rw [h1]
      exact dotl_sq_le q p
    calc |dotl q p| = Real.sqrt ((dotl q p) ^ 2) := (Real.sqrt_sq_eq_abs _).symm
      _ ≤ Real.sqrt ((norml Real.sqrt q * norml Real.sqrt p) ^ 2) :=
          Real.sqrt_le_sqrt hsq
      _ = norml Real.sqrt q * norml Real.sqrt p := Real.sqrt_sq hn0

end LSI
